import Mathlib

/-
Shallow embedding of the ConnectState repository (ConnectState.py, Mcts.py,
meta.py): a Connect-Four rules engine and a Monte Carlo tree search engine.
Python objects are modelled with value semantics: `copy.deepcopy` of a value
is the value itself, and each mutating method is a function from the old
state to the new state.
-/

namespace ConnectFour

/-! ### meta.py: GameMeta constants -/

def ROWS : Nat := 6
def COLS : Nat := 7
def PLAYER_NONE : Nat := 0
def PLAYER_ONE : Nat := 1
def PLAYER_TWO : Nat := 2
def OUTCOME_DRAW : Nat := 3

/-! ### ConnectState.py: board representation

The Python board is a list of ROWS lists of COLS ints.  `getCell` reads
`board[r][c]` with the out-of-range default 0; every in-range access of the
source is modelled exactly, and the source never reads out of range on the
states we consider (bounds are tested before each access in the win check,
and the board always has shape ROWS x COLS). -/

abbrev Board := List (List Nat)

def getCell (b : Board) (r c : Nat) : Nat := (b.getD r []).getD c 0

def setCell (b : Board) (r c v : Nat) : Board := b.set r ((b.getD r []).set c v)

/-- Reads a cell at possibly-negative integer coordinates; the source only
dereferences after testing `0 <= r` / `0 <= c`, so the negative branch is
never hit on source-reachable calls. -/
def getCellZ (b : Board) (r c : Int) : Nat :=
  if 0 ≤ r ∧ 0 ≤ c then getCell b r.toNat c.toNat else 0

/-- Python list indexing `xs[i]` for a list of length `n` resolves a
negative `i` with `-n ≤ i` to `i + n`; for `-n ≤ i < n` that is exactly
`i mod n`. -/
def pyIdx (n : Nat) (i : Int) : Nat := (i % (n : Int)).toNat

/-- ConnectState.__init__ fields: `board`, `current_player`,
`column_heights`, `last_move`.  In the source the stored `last_move` row is
the raw `column_heights[col]` value, resolved by Python indexing at each
later access; we store the resolved row index (identical observable
behaviour for the index range the source produces). -/
structure ConnectState where
  board : Board
  current_player : Nat
  column_heights : List Int
  last_move : Option (Nat × Nat)
deriving DecidableEq

/-- ConnectState.__init__: empty board, player one to move, all column
heights at the bottom row index, no last move. -/
def initialState : ConnectState :=
  { board := List.replicate ROWS (List.replicate COLS 0)
    current_player := PLAYER_ONE
    column_heights := List.replicate COLS ((ROWS : Int) - 1)
    last_move := none }

/-- ConnectState.get_board: `return deepcopy(self.board)` — a deep copy of
the grid (and only the grid); in value semantics the copy is the value. -/
def get_board (s : ConnectState) : Board := s.board

/-- ConnectState.make_move: writes the current player's mark at
`(column_heights[col], col)`, records it as the last move, decrements the
column height, and flips the current player. -/
def make_move (s : ConnectState) (col : Nat) : ConnectState :=
  let h := s.column_heights.getD col 0
  let row := pyIdx ROWS h
  { board := setCell s.board row col s.current_player
    current_player := if s.current_player = PLAYER_ONE then PLAYER_TWO else PLAYER_ONE
    column_heights := s.column_heights.set col (h - 1)
    last_move := some (row, col) }

/-- ConnectState.available_moves:
`[col for col in range(COLS) if self.board[0][col] == 0]`. -/
def available_moves (s : ConnectState) : List Nat :=
  (List.range COLS).filter (fun col => getCell s.board 0 col == 0)

/-- Horizontal half of the win check: the source's
`while 0 <= c + d < COLS and board[r][c + d] == player` loop, counting the
steps taken.  Fuel 8 never truncates: the column coordinate moves by
`d = ±1` each step and stays inside `[0, COLS)`, so at most `COLS - 1 < 8`
steps are possible. -/
def horizExt (b : Board) (player : Nat) : Nat → Int → Int → Int → Nat
  | 0, _, _, _ => 0
  | fuel + 1, r, c, d =>
    if 0 ≤ c + d ∧ c + d < (COLS : Int) ∧ getCellZ b r (c + d) = player
    then 1 + horizExt b player fuel r (c + d) d
    else 0

/-- Vertical half of the win check: the source's
`while 0 <= r + d < ROWS and board[r + d][c] == player` loop. -/
def vertExt (b : Board) (player : Nat) : Nat → Int → Int → Int → Nat
  | 0, _, _, _ => 0
  | fuel + 1, r, c, d =>
    if 0 ≤ r + d ∧ r + d < (ROWS : Int) ∧ getCellZ b (r + d) c = player
    then 1 + vertExt b player fuel (r + d) c d
    else 0

/-- One diagonal direction of the win check: the source's
`while 0 <= r + dr < ROWS and 0 <= c + dc < COLS and board[r + dr][c + dc] == player`
loop. -/
def diagExt (b : Board) (player : Nat) : Nat → Int → Int → Int → Int → Nat
  | 0, _, _, _, _ => 0
  | fuel + 1, r, c, dr, dc =>
    if 0 ≤ r + dr ∧ r + dr < (ROWS : Int) ∧ 0 ≤ c + dc ∧ c + dc < (COLS : Int) ∧
        getCellZ b (r + dr) (c + dc) = player
    then 1 + diagExt b player fuel (r + dr) (c + dc) dr dc
    else 0

/-- ConnectState.is_winning_move.  The horizontal and vertical checks sum
the extensions in both directions into one shared count; the diagonal check
iterates the four diagonal directions and RESETS the count to 1 for each
direction (as the source does), returning true if any single direction,
together with the cell itself, reaches 4. -/
def is_winning_move (s : ConnectState) (row col : Nat) : Bool :=
  let player := getCell s.board row col
  let horiz := 1 + horizExt s.board player 8 row col (-1) + horizExt s.board player 8 row col 1
  if 4 ≤ horiz then true
  else
    let vert := 1 + vertExt s.board player 8 row col (-1) + vertExt s.board player 8 row col 1
    if 4 ≤ vert then true
    else
      [((-1 : Int), (-1 : Int)), (-1, 1), (1, -1), (1, 1)].any
        (fun p => 4 ≤ 1 + diagExt s.board player 8 row col p.1 p.2)

/-- ConnectState.check_victory: if there is a last move and it is winning,
return the mark at that cell, else 0.  (A recorded `(row, col)` tuple is
always truthy in Python, so only `None` takes the 0 branch.) -/
def check_victory (s : ConnectState) : Nat :=
  match s.last_move with
  | some (r, c) => if is_winning_move s r c then getCell s.board r c else 0
  | none => 0

/-- ConnectState.is_game_over:
`return self.check_victory() or not self.available_moves()`. -/
def is_game_over (s : ConnectState) : Bool :=
  check_victory s != 0 || (available_moves s).isEmpty

/-- ConnectState.get_winner: draw (3) when no moves remain and no victory;
otherwise outcome one (1) if the victory check returns player one, else
outcome two (2). -/
def get_winner (s : ConnectState) : Nat :=
  if (available_moves s).isEmpty ∧ check_victory s = 0 then OUTCOME_DRAW
  else if check_victory s = PLAYER_ONE then 1 else 2

/-- Applies a list of moves (columns) in order with `make_move`. -/
def applyMoves (s : ConnectState) : List Nat → ConnectState
  | [] => s
  | c :: rest => applyMoves (make_move s c) rest

/-- Decides that every move of the list is in `available_moves` of the
state it is played from. -/
def allLegal (s : ConnectState) : List Nat → Bool
  | [] => true
  | c :: rest => decide (c ∈ available_moves s) && allLegal (make_move s c) rest

/-- Number of occupied (non-empty) cells of the board. -/
def occupiedCount (s : ConnectState) : Nat :=
  (s.board.map (fun row => row.countP (fun v => v != 0))).sum

/-! ### Mcts.py: tree nodes and the search engine

A Python `TreeNode` stores `action`, `parent_node`, `visit_count`,
`win_count`, `children` (a dict from action to child), plus an `outcome`
field that is set to `PLAYERS['none']` and never updated and a
`nodes_expanded` field that is never read.  `add_children` inserts each
child under its own `action` as the key, so a child's action is exactly its
key in the parent's mapping; we therefore store the children as an
association list from action to node and drop the redundant `action`,
never-read `outcome` / `nodes_expanded` fields, and the parent
back-reference (the parent chain is recovered as the path from the root in
the tree, which is how `backpropagate` is modelled below). -/

inductive TreeNode : Type where
  | node (visit_count win_count : Nat) (children : List (Nat × TreeNode)) : TreeNode

def TreeNode.visit_count : TreeNode → Nat
  | .node v _ _ => v

def TreeNode.win_count : TreeNode → Nat
  | .node _ w _ => w

def TreeNode.children : TreeNode → List (Nat × TreeNode)
  | .node _ _ cs => cs

/-- TreeNode.__init__: `visit_count = 0`, `win_count = 0`, no children. -/
def TreeNode.init : TreeNode := .node 0 0 []

/-- The engine state the claims touch: MonteCarloTreeSearch's `root_state`
(the authoritative board, deep-copied at construction) and `root_node`.
The diagnostic counters (`execution_time`, `node_count`, `rollout_count`)
are not part of the tree-advancing operations modelled here; the rollout
counting of `run_search` is modelled separately by `runSearchIterations`. -/
structure MCTS where
  root_state : ConnectState
  root_node : TreeNode

/-- MonteCarloTreeSearch.perform_move: if the action is a key of the root's
children, advance the root state and move the root to that child
(preserving its statistics); otherwise advance the root state and install a
fresh `TreeNode(None, None)`. -/
def perform_move (m : MCTS) (action : Nat) : MCTS :=
  match m.root_node.children.lookup action with
  | some child => { root_state := make_move m.root_state action, root_node := child }
  | none => { root_state := make_move m.root_state action, root_node := TreeNode.init }

/-- MonteCarloTreeSearch.determine_best_move.  `random.choice` among the
maximal-visit children is modelled by an arbitrary index `k` reduced modulo
the number of candidates, so every possible random outcome is an instance
of some `k`.  When the root state is not game over and the root has no
children, the source evaluates `max()` over an empty sequence, which raises
`ValueError`; that is the `Except.error` branch. -/
def determine_best_move (m : MCTS) (k : Nat) : Except Unit Int :=
  if is_game_over m.root_state then Except.ok (-1)
  else
    match m.root_node.children with
    | [] => Except.error ()
    | c :: cs =>
      let maxVisits := (cs.map (fun p => p.2.visit_count)).foldl max c.2.visit_count
      let best := (c :: cs).filter (fun p => p.2.visit_count == maxVisits)
      Except.ok ((best.getD (k % best.length) c).1 : Int)

/-- Loop body bookkeeping of MonteCarloTreeSearch.backpropagate: the walk
`while node: node.visit_count += 1; node.win_count += reward;
node = node.parent_node; reward = 0 if outcome == draw else 1 - reward`,
acting on the `(visit_count, win_count)` pairs of the parent chain listed
from the reached node up to the root. -/
def backpropagateAux (outcome : Nat) : List (Nat × Nat) → Nat → List (Nat × Nat)
  | [], _ => []
  | (v, w) :: rest, reward =>
    (v + 1, w + reward) ::
      backpropagateAux outcome rest (if outcome = OUTCOME_DRAW then 0 else 1 - reward)

/-- MonteCarloTreeSearch.backpropagate: the initial reward is
`0 if outcome == current_turn else 1`, then the walk of
`backpropagateAux`. -/
def backpropagate (path : List (Nat × Nat)) (current_turn outcome : Nat) : List (Nat × Nat) :=
  backpropagateAux outcome path (if outcome = current_turn then 0 else 1)

/-- Number of loop iterations of MonteCarloTreeSearch.run_search, i.e. the
amount by which `rollout_count` increases.  The loop re-checks
`time.process_time() - start_time < time_limit` before every iteration;
`clock` lists the successive elapsed-time readings at those checks
(nonnegative, since `process_time` is nondecreasing), modelled as rationals
since exact real timing is outside a shallow embedding.  The loop body
(selection, simulation, backpropagation) never affects the loop condition,
so the iteration count depends only on the readings and the limit. -/
def runSearchIterations (time_limit : ℚ) : List ℚ → Nat
  | [] => 0
  | t :: rest => if t < time_limit then runSearchIterations time_limit rest + 1 else 0

/-- Move list realising the C1 failing input: player one builds the
diagonal (5,0), (4,1), (3,2), (2,3) with (3,2) placed last. -/
def c1Moves : List Nat := [0, 3, 3, 3, 3, 1, 1, 2, 2, 6, 2]

/-- Closed form of the reward credited at depth `i` of the backpropagation
walk (depth 0 is the reached node): for a draw outcome the first node is
credited 1 (the draw never equals the current-turn player) and every
ancestor 0; otherwise the initial reward `0 if outcome = current_turn
else 1` flips at each step. -/
def bpReward (current_turn outcome i : Nat) : Nat :=
  if outcome = OUTCOME_DRAW then (if i = 0 then 1 else 0)
  else if (i + (if outcome = current_turn then 0 else 1)) % 2 = 1 then 1 else 0

/-- Invariant of a state reached by `k` legal moves from the initial
state: the board has shape ROWS x COLS, the heights list has COLS entries,
each column's height is in `[-1, ROWS)` and a cell of the column is empty
exactly when its row index is at most the height (rows fill bottom-up, row
indices growing downwards), the current player is determined by the parity
of `k`, and the number of occupied cells is `k`. -/
def StateInvariant (s : ConnectState) (k : Nat) : Prop :=
  s.board.length = ROWS ∧
  (∀ row ∈ s.board, row.length = COLS) ∧
  s.column_heights.length = COLS ∧
  (∀ c, c < COLS →
    -1 ≤ s.column_heights.getD c 0 ∧ s.column_heights.getD c 0 < (ROWS : Int) ∧
    (∀ r, r < ROWS → (getCell s.board r c = 0 ↔ (r : Int) ≤ s.column_heights.getD c 0))) ∧
  s.current_player = (if k % 2 = 0 then PLAYER_ONE else PLAYER_TWO) ∧
  occupiedCount s = k

/-- Decides that the result `r` is `Except.ok` of the action of some child
in `children` whose visit count is maximal among all the children. -/
def actionOfMaxVisitChild (children : List (Nat × TreeNode)) (r : Except Unit Int) : Bool :=
  children.any (fun p =>
    (match r with
     | Except.ok v => v == (p.1 : Int)
     | Except.error _ => false) &&
    children.all (fun q => decide (q.2.visit_count ≤ p.2.visit_count)))

/-! ### Helper lemmas on lists -/

theorem lgetD_set_eq {α : Type} (l : List α) (i : Nat) (a d : α) (h : i < l.length) :
    (l.set i a).getD i d = a := by
  induction l generalizing i with
  | nil => simp at h
  | cons x xs ih =>
    cases i with
    | zero => rfl
    | succ n =>
      simp only [List.set, List.getD_cons_succ]
      exact ih n (by simpa using h)

theorem lgetD_set_ne {α : Type} (l : List α) {i j : Nat} (a d : α) (h : i ≠ j) :
    (l.set i a).getD j d = l.getD j d := by
  induction l generalizing i j with
  | nil => rfl
  | cons x xs ih =>
    cases i with
    | zero =>
      cases j with
      | zero => exact absurd rfl h
      | succ m => rfl
    | succ n =>
      cases j with
      | zero => rfl
      | succ m =>
        simp only [List.set, List.getD_cons_succ]
        exact ih (fun hnm => h (by simp [hnm]))

theorem countP_set_balance (p : Nat → Bool) (l : List Nat) (c v : Nat) (h : c < l.length) :
    (l.set c v).countP p + (if p (l.getD c 0) then 1 else 0)
      = l.countP p + (if p v then 1 else 0) := by
  induction l generalizing c with
  | nil => simp at h
  | cons x xs ih =>
    cases c with
    | zero =>
      simp only [List.set, List.getD_cons_zero, List.countP_cons]
      omega
    | succ n =>
      simp only [List.set, List.getD_cons_succ, List.countP_cons]
      have := ih n (by simpa using h)
      omega

theorem occupied_sum_set (l : List (List Nat)) (i : Nat) (x : List Nat) (h : i < l.length) :
    ((l.set i x).map (fun r0 => r0.countP (fun v => v != 0))).sum
        + (l.getD i []).countP (fun v => v != 0)
      = (l.map (fun r0 => r0.countP (fun v => v != 0))).sum
        + x.countP (fun v => v != 0) := by
  induction l generalizing i with
  | nil => simp at h
  | cons y ys ih =>
    cases i with
    | zero => simp [List.set]; omega
    | succ n =>
      simp only [List.set, List.getD_cons_succ, List.map_cons, List.sum_cons]
      have := ih n (by simpa using h)
      omega

/-! ### Claim theorems -/

/-- C1 (code-bug demonstration): from the empty board, the legal move
sequence `c1Moves` produces a board whose cells (5,0), (4,1), (3,2), (2,3)
are four same-owner (player one) cells on a diagonal, the last placed cell
(3,2) is one of the four, and no earlier position was game over — yet
`check_victory` reports no winner and `is_game_over` is false, because the
source counts each diagonal direction separately instead of summing the
two opposite extensions through the last-move cell. -/
theorem C1_diagonal_win_missed :
    allLegal initialState c1Moves = true ∧
    ((List.range c1Moves.length).all
      (fun k => !is_game_over (applyMoves initialState (c1Moves.take k)))) = true ∧
    (applyMoves initialState c1Moves).last_move = some (3, 2) ∧
    getCell (applyMoves initialState c1Moves).board 5 0 = PLAYER_ONE ∧
    getCell (applyMoves initialState c1Moves).board 4 1 = PLAYER_ONE ∧
    getCell (applyMoves initialState c1Moves).board 3 2 = PLAYER_ONE ∧
    getCell (applyMoves initialState c1Moves).board 2 3 = PLAYER_ONE ∧
    check_victory (applyMoves initialState c1Moves) = 0 ∧
    is_game_over (applyMoves initialState c1Moves) = false := by
  decide

/-- C2 (counterexample): backpropagating a draw outcome with current turn
player one along a single-node path increments the reached node's
win_count from 0 to 1, refuting the claim that a draw leaves every
win_count on the path unchanged. -/
theorem C2_draw_credits_reached_node :
    backpropagate [(0, 0)] PLAYER_ONE OUTCOME_DRAW = [(1, 1)] ∧
    ¬ ((backpropagate [(0, 0)] PLAYER_ONE OUTCOME_DRAW).getD 0 (0, 0)).2 = 0 := by
  decide

/-- C3 (counterexample): with time limit 0 and nonnegative clock readings
the run_search loop performs zero iterations, refuting the claim that every
non-negative limit yields at least one rollout. -/
theorem C3_zero_limit_zero_rollouts :
    runSearchIterations 0 [0, 1, 2] = 0 := by
  norm_num [runSearchIterations]

/-- C4 (counterexample): two states that differ in current player, column
heights and last move have identical `get_board` snapshots, so the snapshot
does not capture (and cannot restore or track) the full state — only the
grid. -/
theorem C4_snapshot_not_full_state :
    get_board { initialState with
        current_player := PLAYER_TWO, column_heights := [], last_move := some (0, 0) }
      = get_board initialState ∧
    ({ initialState with
        current_player := PLAYER_TWO, column_heights := [], last_move := some (0, 0) }
      : ConnectState).current_player ≠ initialState.current_player := by
  exact ⟨rfl, by decide⟩

/-- C4 (amended): `get_board` copies the grid and only the grid: its result
is exactly the board matrix, and it is unchanged under any change of the
current player, the column heights, or the last move.  (In this
value-semantics embedding the returned copy is automatically independent of
later mutation of either side.) -/
theorem C4_snapshot_copies_grid_only (s : ConnectState) (p : Nat) (hts : List Int)
    (lm : Option (Nat × Nat)) :
    get_board { s with current_player := p, column_heights := hts, last_move := lm }
      = get_board s ∧
    get_board s = s.board :=
  ⟨rfl, rfl⟩

/-- C5: perform_move always advances the root state by applying the move;
when the action is among the prior root's children the new root is that
child (so its visit_count — and whole subtree — is preserved), and when it
is not, the new root is a fresh node with visit_count 0. -/
theorem C5_perform_move_advances (m : MCTS) (action : Nat) :
    (perform_move m action).root_state = make_move m.root_state action ∧
    (∀ child, m.root_node.children.lookup action = some child →
      (perform_move m action).root_node = child ∧
      (perform_move m action).root_node.visit_count = child.visit_count) ∧
    (m.root_node.children.lookup action = none →
      (perform_move m action).root_node.visit_count = 0) := by
  refine ⟨?_, ?_, ?_⟩
  · unfold perform_move
    cases m.root_node.children.lookup action <;> rfl
  · intro child hc
    unfold perform_move
    rw [hc]
    exact ⟨rfl, rfl⟩
  · intro hn
    unfold perform_move
    rw [hn]
    rfl

/-- C5 witness: a root with a single child of 5 visits under action 3:
performing action 3 keeps the 5 visits, performing the unexplored action 4
resets to 0 visits. -/
theorem C5_perform_move_advances_witness :
    (perform_move ⟨initialState, .node 9 4 [(3, .node 5 2 [])]⟩ 3).root_node.visit_count = 5 ∧
    (perform_move ⟨initialState, .node 9 4 [(3, .node 5 2 [])]⟩ 4).root_node.visit_count = 0 :=
  ⟨((C5_perform_move_advances ⟨initialState, .node 9 4 [(3, .node 5 2 [])]⟩ 3).2.1
      (.node 5 2 []) rfl).2,
   (C5_perform_move_advances ⟨initialState, .node 9 4 [(3, .node 5 2 [])]⟩ 4).2.2 rfl⟩

/-- C10 (implicit behaviour confirmed): when the root state is not game
over but the root node has no children, determine_best_move evaluates
`max()` over an empty sequence and fails (raises ValueError, modelled as
the error result) instead of returning a column or the -1 sentinel. -/
theorem C10_best_move_fails_without_children (m : MCTS) (k : Nat)
    (hterm : is_game_over m.root_state = false)
    (hchild : m.root_node.children = []) :
    determine_best_move m k = Except.error () := by
  simp [determine_best_move, hterm, hchild]

/-- C10 witness: a freshly constructed engine on the initial (non-terminal)
board has no children at the root, and determine_best_move fails. -/
theorem C10_best_move_fails_witness :
    determine_best_move ⟨initialState, TreeNode.init⟩ 0 = Except.error () :=
  C10_best_move_fails_without_children ⟨initialState, TreeNode.init⟩ 0 (by decide) rfl

theorem lgetD_mem {α : Type} (l : List α) (n : Nat) (d : α) (h : n < l.length) :
    l.getD n d ∈ l := by
  induction l generalizing n with
  | nil => simp at h
  | cons x xs ih =>
    cases n with
    | zero => exact List.mem_cons_self _ _
    | succ m => exact List.mem_cons_of_mem x (ih m (by simpa using h))

theorem foldl_max_init_le (l : List Nat) (a : Nat) : a ≤ l.foldl max a := by
  induction l generalizing a with
  | nil => exact le_refl a
  | cons x xs ih => exact le_trans (le_max_left a x) (ih (max a x))

theorem le_foldl_max (l : List Nat) (a : Nat) : ∀ x ∈ l, x ≤ l.foldl max a := by
  induction l generalizing a with
  | nil => intro x hx; simp at hx
  | cons y ys ih =>
    intro x hx
    rcases List.mem_cons.mp hx with h | h
    · subst h
      exact le_trans (le_max_right a x) (foldl_max_init_le ys (max a x))
    · exact ih (max a y) x h

theorem foldl_max_attained (l : List Nat) (a : Nat) :
    l.foldl max a = a ∨ l.foldl max a ∈ l := by
  induction l generalizing a with
  | nil => exact Or.inl rfl
  | cons y ys ih =>
    rcases ih (max a y) with h | h
    · rcases Nat.le_total a y with hay | hya
      · right
        rw [List.foldl_cons, h, max_eq_right hay]
        exact List.mem_cons_self _ _
      · left
        rw [List.foldl_cons, h, max_eq_left hya]
    · right
      exact List.mem_cons_of_mem y h

/-! ### Helper lemmas on backpropagation -/

theorem backpropagateAux_length (o : Nat) (path : List (Nat × Nat)) (r : Nat) :
    (backpropagateAux o path r).length = path.length := by
  induction path generalizing r with
  | nil => rfl
  | cons p rest ih =>
    obtain ⟨v, w⟩ := p
    simp [backpropagateAux, ih]

theorem backpropagateAux_draw (path : List (Nat × Nat)) (r : Nat) :
    ∀ i, i < path.length →
      (backpropagateAux OUTCOME_DRAW path r).getD i (0, 0) =
        ((path.getD i (0, 0)).1 + 1,
         (path.getD i (0, 0)).2 + if i = 0 then r else 0) := by
  induction path generalizing r with
  | nil => intro i hi; simp at hi
  | cons p rest ih =>
    obtain ⟨v, w⟩ := p
    intro i hi
    cases i with
    | zero => simp [backpropagateAux]
    | succ n =>
      simp only [backpropagateAux, List.getD_cons_succ, if_true]
      rw [ih 0 n (by simpa using hi)]
      simp

theorem backpropagateAux_flip (o : Nat) (ho : o ≠ OUTCOME_DRAW) (path : List (Nat × Nat)) :
    ∀ r, r ≤ 1 → ∀ i, i < path.length →
      (backpropagateAux o path r).getD i (0, 0) =
        ((path.getD i (0, 0)).1 + 1, (path.getD i (0, 0)).2 + (i + r) % 2) := by
  induction path with
  | nil => intro r _ i hi; simp at hi
  | cons p rest ih =>
    obtain ⟨v, w⟩ := p
    intro r hr i hi
    cases i with
    | zero =>
      simp only [backpropagateAux, List.getD_cons_zero]
      have : r % 2 = r := by omega
      rw [Nat.zero_add, this]
    | succ n =>
      have hstep : (if o = OUTCOME_DRAW then 0 else 1 - r) = 1 - r := if_neg ho
      simp only [backpropagateAux, hstep, List.getD_cons_succ]
      rw [ih (1 - r) (by omega) n (by simpa using hi)]
      have : (n + (1 - r)) % 2 = (n + 1 + r) % 2 := by omega
      rw [this]

/-- C2 (amended): the backpropagation walk preserves the path length and
credits node `i` of the path (0 = reached node) with exactly
`bpReward current_turn outcome i`: on a draw the reached node's win_count
is incremented by 1 (the initial reward `0 if outcome == current_turn
else 1` is 1, since the draw outcome differs from the current-turn player)
and every ancestor's is unchanged; on a non-draw outcome the reward at the
reached node is 0 iff the outcome equals the current-turn argument (the
rolled-out scratch state's current player) and is flipped `1 - reward` at
each ancestor step; every node's visit_count is incremented by 1. -/
theorem C2_backprop_amended (path : List (Nat × Nat)) (current_turn outcome : Nat)
    (h : outcome = OUTCOME_DRAW → current_turn ≠ OUTCOME_DRAW) :
    (backpropagate path current_turn outcome).length = path.length ∧
    (∀ i, i < path.length →
      (backpropagate path current_turn outcome).getD i (0, 0) =
        ((path.getD i (0, 0)).1 + 1,
         (path.getD i (0, 0)).2 + bpReward current_turn outcome i)) := by
  constructor
  · exact backpropagateAux_length _ _ _
  · intro i hi
    by_cases ho : outcome = OUTCOME_DRAW
    · have hct : current_turn ≠ OUTCOME_DRAW := h ho
      have hr : (if outcome = current_turn then 0 else 1) = 1 := by
        rw [if_neg]
        intro hoc
        exact hct (hoc ▸ ho)
      unfold backpropagate
      rw [hr, ho, backpropagateAux_draw path 1 i hi]
      simp [bpReward, ho]
    · unfold backpropagate
      rw [backpropagateAux_flip outcome ho path _ (by split <;> omega) i hi]
      have : bpReward current_turn outcome i
          = (i + (if outcome = current_turn then 0 else 1)) % 2 := by
        simp only [bpReward, if_neg ho]
        rcases Nat.mod_two_eq_zero_or_one (i + if outcome = current_turn then 0 else 1)
          with h2 | h2 <;> simp [h2]
      rw [this]

/-- C2 witness: a concrete non-draw backpropagation step read off through
the amended theorem. -/
theorem C2_backprop_amended_witness :
    (backpropagate [(5, 2), (7, 3)] 1 2).getD 1 (0, 0) = (8, 3) := by
  have h := (C2_backprop_amended [(5, 2), (7, 3)] 1 2 (by decide)).2 1 (by decide)
  simpa [bpReward] using h

/-- C3 (amended): the run_search loop performs zero iterations whenever the
time limit is at most 0 (the elapsed-time readings are nonnegative and the
loop tests the limit before the first iteration), and performs at least one
iteration exactly when the first elapsed-time reading is strictly below the
limit. -/
theorem C3_run_search_amended (time_limit : ℚ) (clock : List ℚ) :
    (time_limit ≤ 0 → (∀ t ∈ clock, 0 ≤ t) → runSearchIterations time_limit clock = 0) ∧
    (∀ t rest, clock = t :: rest →
      (1 ≤ runSearchIterations time_limit clock ↔ t < time_limit)) := by
  constructor
  · intro hlim hnn
    cases clock with
    | nil => rfl
    | cons t rest =>
      have h0 : (0 : ℚ) ≤ t := hnn t (List.mem_cons_self _ _)
      have hnot : ¬ t < time_limit := by
        intro hlt
        exact absurd (lt_of_le_of_lt h0 hlt) (not_lt.mpr hlim)
      simp [runSearchIterations, hnot]
  · intro t rest hc
    subst hc
    constructor
    · intro h1
      by_contra hnot
      simp [runSearchIterations, hnot] at h1
    · intro hlt
      simp [runSearchIterations, hlt]

/-- C3 witness: a nonpositive limit yields zero iterations; a first reading
below a positive limit yields at least one rollout, and a first reading at
or above the limit yields none. -/
theorem C3_run_search_amended_witness :
    runSearchIterations (-1) [0, 1] = 0 ∧ 1 ≤ runSearchIterations 1 [0, 2] ∧
    ¬ 1 ≤ runSearchIterations 1 [2, 3] :=
  ⟨(C3_run_search_amended (-1) [0, 1]).1 (by norm_num)
      (by intro t ht; fin_cases ht <;> norm_num),
   ((C3_run_search_amended 1 [0, 2]).2 0 [2] rfl).mpr (by norm_num),
   fun h => absurd (((C3_run_search_amended 1 [2, 3]).2 2 [3] rfl).mp h) (by norm_num)⟩

theorem backpropagateAux_incr (o : Nat) (path : List (Nat × Nat)) :
    ∀ r, r ≤ 1 →
      (∀ i, i < path.length →
        ((backpropagateAux o path r).getD i (0, 0)).1 = (path.getD i (0, 0)).1 + 1 ∧
        (((backpropagateAux o path r).getD i (0, 0)).2 = (path.getD i (0, 0)).2 ∨
         ((backpropagateAux o path r).getD i (0, 0)).2 = (path.getD i (0, 0)).2 + 1)) ∧
      ((∀ p ∈ path, p.2 ≤ p.1) → ∀ p ∈ backpropagateAux o path r, p.2 ≤ p.1) := by
  induction path with
  | nil =>
    intro r _
    constructor
    · intro i hi; simp at hi
    · intro _ p hp; simp [backpropagateAux] at hp
  | cons q rest ih =>
    obtain ⟨v, w⟩ := q
    intro r hr
    have hr' : (if o = OUTCOME_DRAW then 0 else 1 - r) ≤ 1 := by split <;> omega
    obtain ⟨ih1, ih2⟩ := ih _ hr'
    constructor
    · intro i hi
      cases i with
      | zero =>
        refine ⟨rfl, ?_⟩
        show w + r = w ∨ w + r = w + 1
        omega
      | succ n => simpa [backpropagateAux] using ih1 n (by simpa using hi)
    · intro hle p hp
      simp only [backpropagateAux, List.mem_cons] at hp
      rcases hp with hp | hp
      · subst hp
        have hvw : w ≤ v := hle (v, w) (List.mem_cons_self _ _)
        simpa using by omega
      · exact ih2 (fun x hx => hle x (List.mem_cons_of_mem _ hx)) p hp

/-- C7: both counters of a fresh node start at zero, and a backpropagation
pass increments every path node's visit_count by exactly 1 and its
win_count by 0 or 1; consequently `win_count ≤ visit_count` is preserved
along the whole path. -/
theorem C7_win_le_visit (path : List (Nat × Nat)) (current_turn outcome : Nat)
    (hpath : ∀ p ∈ path, p.2 ≤ p.1) :
    TreeNode.init.visit_count = 0 ∧ TreeNode.init.win_count = 0 ∧
    (backpropagate path current_turn outcome).length = path.length ∧
    (∀ i, i < path.length →
      ((backpropagate path current_turn outcome).getD i (0, 0)).1
        = (path.getD i (0, 0)).1 + 1 ∧
      (((backpropagate path current_turn outcome).getD i (0, 0)).2
          = (path.getD i (0, 0)).2 ∨
       ((backpropagate path current_turn outcome).getD i (0, 0)).2
          = (path.getD i (0, 0)).2 + 1)) ∧
    (∀ p ∈ backpropagate path current_turn outcome, p.2 ≤ p.1) := by
  have hr : (if outcome = current_turn then 0 else 1) ≤ 1 := by split <;> omega
  obtain ⟨h1, h2⟩ := backpropagateAux_incr outcome path _ hr
  exact ⟨rfl, rfl, backpropagateAux_length _ _ _, h1, h2 hpath⟩

/-- C7 witness: the backpropagation result on a concrete path keeps the
path length (and, through the theorem, the counter invariant). -/
theorem C7_win_le_visit_witness :
    (backpropagate [(3, 2), (9, 9)] 1 1).length = 2 := by
  simpa using (C7_win_le_visit [(3, 2), (9, 9)] 1 1 (by decide)).2.2.1

/-- C6: determine_best_move returns the -1 sentinel exactly when the root
state is game over; when it is not and the root has children, the result is
`ok` of the action of a child attaining the maximum visit_count among all
the root's children (visit count, not win rate). -/
theorem C6_determine_best_move (m : MCTS) (k : Nat) :
    ((determine_best_move m k = Except.ok (-1)) ↔ is_game_over m.root_state = true) ∧
    (is_game_over m.root_state = false → m.root_node.children ≠ [] →
      actionOfMaxVisitChild m.root_node.children (determine_best_move m k) = true) := by
  have main : ∀ (hg : is_game_over m.root_state = false) (c : Nat × TreeNode)
      (cs : List (Nat × TreeNode)) (hc : m.root_node.children = c :: cs),
      actionOfMaxVisitChild m.root_node.children (determine_best_move m k) = true ∧
      ∃ n : Nat, determine_best_move m k = Except.ok (n : Int) := by
    intro hg c cs hc
    have hres : determine_best_move m k =
        Except.ok ((((c :: cs).filter
            (fun p => p.2.visit_count ==
              (cs.map (fun p => p.2.visit_count)).foldl max c.2.visit_count)).getD
          (k % ((c :: cs).filter
            (fun p => p.2.visit_count ==
              (cs.map (fun p => p.2.visit_count)).foldl max c.2.visit_count)).length) c).1
          : Int) := by
      simp only [determine_best_move, hg, hc]
      rfl
    set maxV := (cs.map (fun p => p.2.visit_count)).foldl max c.2.visit_count with hmaxV
    set best := (c :: cs).filter (fun p => p.2.visit_count == maxV) with hbest
    have hattain : ∃ p ∈ c :: cs, p.2.visit_count = maxV := by
      rcases foldl_max_attained (cs.map (fun p => p.2.visit_count)) c.2.visit_count with h | h
      · exact ⟨c, List.mem_cons_self _ _, h.symm⟩
      · obtain ⟨q, hq, hqv⟩ := List.mem_map.mp h
        exact ⟨q, List.mem_cons_of_mem _ hq, hqv⟩
    have hbest_ne : best ≠ [] := by
      obtain ⟨p, hp, hpv⟩ := hattain
      intro hnil
      have : p ∈ best := List.mem_filter.mpr ⟨hp, by simp [hpv]⟩
      rw [hnil] at this
      simp at this
    have hlenpos : 0 < best.length := List.length_pos.mpr hbest_ne
    have hidx : k % best.length < best.length := Nat.mod_lt _ hlenpos
    have hchosen_mem : best.getD (k % best.length) c ∈ best := lgetD_mem _ _ _ hidx
    obtain ⟨hchosen_in, hchosen_eq⟩ := List.mem_filter.mp hchosen_mem
    have hchosen_v : (best.getD (k % best.length) c).2.visit_count = maxV := by
      simpa using hchosen_eq
    have hbound : ∀ q ∈ c :: cs, q.2.visit_count ≤ maxV := by
      intro q hq
      rcases List.mem_cons.mp hq with h | h
      · subst h
        exact foldl_max_init_le _ _
      · exact le_foldl_max _ _ _ (List.mem_map_of_mem _ h)
    constructor
    · rw [hc]
      apply List.any_eq_true.mpr
      refine ⟨best.getD (k % best.length) c, hchosen_in, ?_⟩
      rw [Bool.and_eq_true]
      constructor
      · rw [hres]
        simp
      · apply List.all_eq_true.mpr
        intro q hq
        simp only [decide_eq_true_eq]
        rw [hchosen_v]
        exact hbound q hq
    · exact ⟨_, hres⟩
  constructor
  · cases hg : is_game_over m.root_state with
    | true => simp [determine_best_move, hg]
    | false =>
      simp only [Bool.false_eq_true, iff_false]
      cases hc : m.root_node.children with
      | nil => simp [determine_best_move, hg, hc]
      | cons c cs =>
        obtain ⟨-, n, hn⟩ := main hg c cs hc
        rw [hn]
        intro hbad
        simp only [Except.ok.injEq] at hbad
        omega
  · intro hg hne
    cases hc : m.root_node.children with
    | nil => exact absurd hc hne
    | cons c cs => exact hc ▸ (main hg c cs hc).1

/-- C6 witness: a non-terminal root with two explored children; the engine
returns the action of the child with the larger visit count. -/
theorem C6_determine_best_move_witness :
    actionOfMaxVisitChild [((2 : Nat), TreeNode.node 3 1 []), (5, TreeNode.node 7 4 [])]
      (determine_best_move
        ⟨initialState, TreeNode.node 0 0 [((2 : Nat), TreeNode.node 3 1 []), (5, TreeNode.node 7 4 [])]⟩
        0) = true :=
  (C6_determine_best_move
    ⟨initialState, TreeNode.node 0 0 [((2 : Nat), TreeNode.node 3 1 []), (5, TreeNode.node 7 4 [])]⟩
    0).2 (by decide) (List.cons_ne_nil _ _)

/-! ### Helper lemmas on the rules engine -/

theorem avail_mem (s : ConnectState) (c : Nat) :
    c ∈ available_moves s ↔ c < COLS ∧ getCell s.board 0 c = 0 := by
  simp [available_moves, List.mem_filter, List.mem_range]

theorem stateInvariant_init : StateInvariant initialState 0 :=
  ⟨rfl, by decide, rfl, by decide, rfl, rfl⟩

theorem stateInvariant_preserved {s : ConnectState} {k : Nat}
    (inv : StateInvariant s k) {c : Nat} (hc : c ∈ available_moves s) :
    StateInvariant (make_move s c) (k + 1) := by
  obtain ⟨hblen, hrows, hhlen, hcols, hplayer, hocc⟩ := inv
  obtain ⟨hc7, hc0⟩ := (avail_mem s c).mp hc
  obtain ⟨hgem1, hlt6, hiff⟩ := hcols c hc7
  have h0 : (0 : Int) ≤ s.column_heights.getD c 0 := by
    have := (hiff 0 (by norm_num [ROWS])).mp hc0
    exact_mod_cast this
  obtain ⟨row, hrowz, hrowlt⟩ :
      ∃ row : Nat, (row : Int) = s.column_heights.getD c 0 ∧ row < ROWS := by
    refine ⟨(s.column_heights.getD c 0).toNat, Int.toNat_of_nonneg h0, ?_⟩
    unfold ROWS at hlt6 ⊢
    omega
  have hrow_eq : pyIdx ROWS (s.column_heights.getD c 0) = row := by
    unfold pyIdx
    rw [Int.emod_eq_of_lt h0 hlt6, ← hrowz]
    simp
  have hmm_board : (make_move s c).board = setCell s.board row c s.current_player := by
    show setCell s.board (pyIdx ROWS (s.column_heights.getD c 0)) c s.current_player = _
    rw [hrow_eq]
  have hmm_heights : (make_move s c).column_heights
      = s.column_heights.set c (s.column_heights.getD c 0 - 1) := rfl
  have hmm_player : (make_move s c).current_player
      = if s.current_player = PLAYER_ONE then PLAYER_TWO else PLAYER_ONE := rfl
  have hrowmem : s.board.getD row [] ∈ s.board := lgetD_mem _ _ _ (by omega)
  have hrowlen : (s.board.getD row []).length = COLS := hrows _ hrowmem
  have hcell0 : getCell s.board row c = 0 := (hiff row hrowlt).mpr (le_of_eq hrowz)
  have hpl : s.current_player = PLAYER_ONE ∨ s.current_player = PLAYER_TWO := by
    rw [hplayer]
    split
    · exact Or.inl rfl
    · exact Or.inr rfl
  have hpl0 : s.current_player ≠ 0 := by
    rcases hpl with h | h <;> simp [h, PLAYER_ONE, PLAYER_TWO]
  refine ⟨?_, ?_, ?_, ?_, ?_, ?_⟩
  · rw [hmm_board]
    unfold setCell
    rw [List.length_set]
    exact hblen
  · rw [hmm_board]
    intro r hr
    unfold setCell at hr
    rcases List.mem_or_eq_of_mem_set hr with h | h
    · exact hrows r h
    · rw [h, List.length_set]
      exact hrowlen
  · rw [hmm_heights, List.length_set]
    exact hhlen
  · intro c' hc'
    by_cases hcc : c' = c
    · subst hcc
      have hgd : (make_move s c').column_heights.getD c' 0
          = s.column_heights.getD c' 0 - 1 := by
        rw [hmm_heights]
        exact lgetD_set_eq _ _ _ _ (by omega)
      refine ⟨by rw [hgd]; omega, by rw [hgd]; omega, ?_⟩
      intro r hr
      rw [hgd]
      by_cases hrr : r = row
      · subst hrr
        have hcellnew : getCell (make_move s c').board r c' = s.current_player := by
          rw [hmm_board]
          unfold getCell setCell
          rw [lgetD_set_eq _ _ _ _ (by omega), lgetD_set_eq _ _ _ _ (by omega)]
        rw [hcellnew]
        constructor
        · intro hz
          exact absurd hz hpl0
        · intro hle
          exfalso
          omega
      · have hcellold : getCell (make_move s c').board r c' = getCell s.board r c' := by
          rw [hmm_board]
          unfold getCell setCell
          rw [lgetD_set_ne _ _ _ (fun he => hrr he.symm)]
        rw [hcellold]
        have hold := hiff r hr
        constructor
        · intro hz
          have hrh := hold.mp hz
          have hne : r ≠ row := hrr
          omega
        · intro hle
          exact hold.mpr (by omega)
    · have hgd : (make_move s c).column_heights.getD c' 0 = s.column_heights.getD c' 0 := by
        rw [hmm_heights]
        exact lgetD_set_ne _ _ _ (fun he => hcc he.symm)
      obtain ⟨ha1, ha2, hif⟩ := hcols c' hc'
      refine ⟨by rw [hgd]; exact ha1, by rw [hgd]; exact ha2, ?_⟩
      intro r hr
      rw [hgd]
      have hcellsame : getCell (make_move s c).board r c' = getCell s.board r c' := by
        rw [hmm_board]
        unfold getCell setCell
        by_cases hrr : r = row
        · subst hrr
          rw [lgetD_set_eq _ _ _ _ (by omega)]
          exact lgetD_set_ne _ _ _ (fun he => hcc he.symm)
        · rw [lgetD_set_ne _ _ _ (fun he => hrr he.symm)]
      rw [hcellsame]
      exact hif r hr
  · rw [hmm_player, hplayer]
    rcases Nat.mod_two_eq_zero_or_one k with hk | hk
    · have h1 : (k + 1) % 2 = 1 := by omega
      simp [hk, h1, PLAYER_ONE, PLAYER_TWO]
    · have h1 : (k + 1) % 2 = 0 := by omega
      simp [hk, h1, PLAYER_ONE, PLAYER_TWO]
  · show occupiedCount (make_move s c) = k + 1
    unfold occupiedCount
    rw [hmm_board]
    unfold setCell
    have hbal := occupied_sum_set s.board row
      ((s.board.getD row []).set c s.current_player) (by omega)
    have hcnt := countP_set_balance (fun v => v != 0) (s.board.getD row []) c
      s.current_player (by omega)
    have hcz : (s.board.getD row []).getD c 0 = 0 := hcell0
    rw [hcz] at hcnt
    have hptrue : (s.current_player != 0) = true := by
      rcases hpl with h | h <;> simp [h, PLAYER_ONE, PLAYER_TWO]
    simp only [hptrue, bne_self_eq_false, Bool.false_eq_true, if_false, if_true] at hcnt
    have hoccs : (s.board.map (fun r0 => r0.countP (fun v => v != 0))).sum = k := hocc
    omega

theorem allLegal_take (ms : List Nat) : ∀ (s : ConnectState) (k : Nat),
    allLegal s ms = true → allLegal s (ms.take k) = true := by
  induction ms with
  | nil =>
    intro s k _
    cases k <;> rfl
  | cons c rest ih =>
    intro s k h
    cases k with
    | zero => rfl
    | succ n =>
      rw [List.take_succ_cons]
      simp only [allLegal, Bool.and_eq_true] at h ⊢
      exact ⟨h.1, ih (make_move s c) n h.2⟩

theorem applyMoves_inv (ms : List Nat) : ∀ (s : ConnectState) (k : Nat),
    StateInvariant s k → allLegal s ms = true →
    StateInvariant (applyMoves s ms) (k + ms.length) := by
  induction ms with
  | nil =>
    intro s k hi _
    simpa [applyMoves] using hi
  | cons c rest ih =>
    intro s k hi hleg
    simp only [allLegal, Bool.and_eq_true, decide_eq_true_eq] at hleg
    have hinv' := stateInvariant_preserved hi hleg.1
    have hrec := ih (make_move s c) (k + 1) hinv' hleg.2
    have harith : k + (c :: rest).length = k + 1 + rest.length := by
      simp
      omega
    rw [harith]
    exact hrec

/-! ### Remaining claim theorems -/

/-- C8: available_moves returns, in strictly ascending column order,
exactly the columns below COLS whose top cell is empty; and making a move
that fills a column's top cell (height pointing at row 0) removes that
column from available_moves. -/
theorem C8_available_moves_spec (s : ConnectState) (c : Nat) :
    (c ∈ available_moves s ↔ c < COLS ∧ getCell s.board 0 c = 0) ∧
    (available_moves s).Pairwise (· < ·) ∧
    (0 < s.board.length → c < (s.board.getD 0 []).length → s.current_player ≠ 0 →
      s.column_heights.getD c 0 = 0 → c ∉ available_moves (make_move s c)) := by
  refine ⟨avail_mem s c, (List.pairwise_lt_range COLS).filter _, ?_⟩
  intro hb hcl hp hh hmem
  have hcell := (avail_mem _ _).mp hmem
  apply hp
  have hrow : pyIdx ROWS (s.column_heights.getD c 0) = 0 := by
    rw [hh]
    rfl
  have hnew : getCell (make_move s c).board 0 c = s.current_player := by
    show getCell (setCell s.board (pyIdx ROWS (s.column_heights.getD c 0)) c
      s.current_player) 0 c = _
    rw [hrow]
    unfold getCell setCell
    rw [lgetD_set_eq _ _ _ _ hb, lgetD_set_eq _ _ _ _ hcl]
  rw [← hnew]
  exact hcell.2

/-- C8 witness: column 3 is available on the empty board; after filling a
column whose height points at the top row, it is no longer available. -/
theorem C8_available_moves_spec_witness :
    3 ∈ available_moves initialState ∧
    3 ∉ available_moves
      (make_move { initialState with column_heights := initialState.column_heights.set 3 0 } 3) :=
  ⟨(C8_available_moves_spec initialState 3).1.mpr (by decide),
   (C8_available_moves_spec
      { initialState with column_heights := initialState.column_heights.set 3 0 } 3).2.2
     (by decide) (by decide) (by decide) (by decide)⟩

/-- C9: along any legal move sequence from the initial state, the number of
occupied cells equals the number of moves applied, the player to move after
k moves is player one iff k is even, and the current player strictly
alternates at every placement. -/
theorem C9_count_and_alternation (ms : List Nat) (h : allLegal initialState ms = true) :
    occupiedCount (applyMoves initialState ms) = ms.length ∧
    (∀ k, k ≤ ms.length →
      (applyMoves initialState (ms.take k)).current_player
        = (if k % 2 = 0 then PLAYER_ONE else PLAYER_TWO)) ∧
    (∀ k, k < ms.length →
      (applyMoves initialState (ms.take (k + 1))).current_player
        ≠ (applyMoves initialState (ms.take k)).current_player) := by
  have hfull := applyMoves_inv ms initialState 0 stateInvariant_init h
  have hpref : ∀ k, k ≤ ms.length →
      (applyMoves initialState (ms.take k)).current_player
        = (if k % 2 = 0 then PLAYER_ONE else PLAYER_TWO) := by
    intro k hk
    have hleg := allLegal_take ms initialState k h
    have hinv := applyMoves_inv (ms.take k) initialState 0 stateInvariant_init hleg
    have hlen : (ms.take k).length = k := by
      rw [List.length_take]
      exact Nat.min_eq_left hk
    obtain ⟨-, -, -, -, hplayer, -⟩ := hinv
    rw [hplayer, hlen]
    simp
  refine ⟨?_, hpref, ?_⟩
  · obtain ⟨-, -, -, -, -, hocc⟩ := hfull
    simpa using hocc
  · intro k hk
    rw [hpref (k + 1) (by omega), hpref k (by omega)]
    rcases Nat.mod_two_eq_zero_or_one k with hk2 | hk2
    · have h1 : (k + 1) % 2 = 1 := by omega
      simp [hk2, h1, PLAYER_ONE, PLAYER_TWO]
    · have h1 : (k + 1) % 2 = 0 := by omega
      simp [hk2, h1, PLAYER_ONE, PLAYER_TWO]

/-- C9 witness: three legal moves from the empty board occupy three cells
and leave player two to move. -/
theorem C9_count_and_alternation_witness :
    occupiedCount (applyMoves initialState [3, 3, 0]) = 3 ∧
    (applyMoves initialState [3, 3, 0]).current_player = PLAYER_TWO := by
  have h := C9_count_and_alternation [3, 3, 0] (by decide)
  refine ⟨by simpa using h.1, ?_⟩
  have h2 := h.2.1 3 (by norm_num)
  simpa using h2

end ConnectFour
